import Mathlib

/-!
Verification of the anymap crate (src/lib.rs): a map holding at most one
value per static type, keyed by the type identity, with unchecked
downcasts of type-erased boxed values.

The embedding models:
- the universe of static Rust types as an inductive `RustType`, with the
  Lean type of values of each as `Value`;
- `TypeId` as a natural-number identity (the spec allows 64-bit or wider);
- `Box<Any>` as a dependent pair `AnyBox` of a type and a value of it;
- the unchecked downcasts as functions returning `Option`, where `none`
  marks the undefined-behaviour branch the real code would take when the
  dynamic type does not match;
- `HashMap<TypeId, Box<Any>, TypeIdHasher>` as an association list with
  the standard insert/remove/lookup contract (position in the list plays
  the role of bucket placement and is unobservable through the API);
- the custom hasher pipeline (`TypeIdState.write`, `TypeIdHasher.hash`)
  over little-endian byte lists, with the debug assertion of `write`
  modelled as the `Option` failure branch.
-/

namespace Anymap

/-- A universe of static Rust types: the integer type and the `Foo` struct
from the crate documentation, plus countably many further distinct types. -/
inductive RustType : Type where
  | intTy : RustType
  | fooTy : RustType
  | otherTy : Nat → RustType
deriving DecidableEq

/-- The Lean type of Rust values of each static type: `int` is modelled by
`Int`, the one-field struct `Foo { str: String }` by `String`, and the
remaining types by `Nat`. -/
def Value : RustType → Type
  | .intTy => Int
  | .fooTy => String
  | .otherTy _ => Nat

instance Value.decEq : (t : RustType) → DecidableEq (Value t)
  | .intTy => inferInstanceAs (DecidableEq Int)
  | .fooTy => inferInstanceAs (DecidableEq String)
  | .otherTy _ => inferInstanceAs (DecidableEq Nat)

instance Value.intOfNat (n : Nat) : OfNat (Value RustType.intTy) n :=
  inferInstanceAs (OfNat Int n)

instance Value.otherOfNat (k n : Nat) : OfNat (Value (RustType.otherTy k)) n :=
  inferInstanceAs (OfNat Nat n)

/-- Modelled from the spec: `TypeId::of::<T>()` is the compiler intrinsic
`std::intrinsics::TypeId`, not part of this repository. Per the spec it is
a process-stable identifier, 64-bit or wider, unique to each distinct
static type; we model it as an injective encoding into `Nat`. -/
def TypeId.of : RustType → Nat
  | .intTy => 0
  | .fooTy => 1
  | .otherTy n => n + 2

/-- A `Box<Any + 'static>`: a value paired with its erased dynamic type.
The dynamic type component models the vtable pointer of the trait object,
which is what `Any::get_type_id` would report. -/
abbrev AnyBox : Type := Sigma Value

instance AnyBox.decEq : DecidableEq AnyBox :=
  inferInstanceAs (DecidableEq (Sigma Value))

/-- `UncheckedBoxAny::downcast_unchecked::<T>` (and equally the reference
forms `downcast_ref_unchecked` and `downcast_mut_unchecked`): reinterpret
the box as holding a `T` with no runtime check. When the dynamic type
really is `T` the transmute yields the value; otherwise the real code has
undefined behaviour, modelled here by `none`. -/
def downcast_unchecked (T : RustType) (b : AnyBox) : Option (Value T) :=
  if h : b.fst = T then some (h ▸ b.snd) else none

/-- `HashMap::get` on the backing table: the value of the first entry
whose key matches. -/
def hmGet (k : Nat) : List (Nat × AnyBox) → Option AnyBox
  | [] => none
  | (k', b) :: t => if k' = k then some b else hmGet k t

/-- `HashMap::insert` on the backing table: replace the entry holding the
key, returning the previous value, or append a fresh entry. -/
def hmInsert (k : Nat) (v : AnyBox) : List (Nat × AnyBox) → Option AnyBox × List (Nat × AnyBox)
  | [] => (none, [(k, v)])
  | (k', b) :: t =>
    if k' = k then (some b, (k, v) :: t)
    else
      let r := hmInsert k v t
      (r.1, (k', b) :: r.2)

/-- `HashMap::remove` on the backing table: drop the entry holding the
key, returning its value. -/
def hmRemove (k : Nat) : List (Nat × AnyBox) → Option AnyBox × List (Nat × AnyBox)
  | [] => (none, [])
  | (k', b) :: t =>
    if k' = k then (some b, t)
    else
      let r := hmRemove k t
      (r.1, (k', b) :: r.2)

/-- In-place update of the entry holding the key, used to model writes
through the mutable reference returned by `get_mut`. -/
def hmModify (k : Nat) (g : AnyBox → AnyBox) : List (Nat × AnyBox) → List (Nat × AnyBox)
  | [] => []
  | (k', b) :: t => if k' = k then (k', g b) :: t else (k', b) :: hmModify k g t

/-- The `AnyMap` struct: its single field is the `HashMap` from type
identities to boxed erased values. -/
structure AnyMap : Type where
  data : List (Nat × AnyBox)
deriving DecidableEq

namespace AnyMap

/-- `AnyMap::new`: an empty table. -/
def new : AnyMap := ⟨[]⟩

/-- `AnyMap::get::<T>`: look up `TypeId::of::<T>()` and downcast the hit
without a check. -/
def get (T : RustType) (m : AnyMap) : Option (Value T) :=
  (hmGet (TypeId.of T) m.data).bind (downcast_unchecked T)

/-- `AnyMap::get_mut::<T>`: same lookup and unchecked downcast as `get`,
yielding the value behind the mutable reference. -/
def get_mut (T : RustType) (m : AnyMap) : Option (Value T) :=
  (hmGet (TypeId.of T) m.data).bind (downcast_unchecked T)

/-- `AnyMap::insert::<T>`: insert the boxed value under `TypeId::of::<T>()`
and downcast any previous value without a check. Returns the pair of the
returned `Option<T>` and the updated map. -/
def insert (T : RustType) (v : Value T) (m : AnyMap) : Option (Value T) × AnyMap :=
  let r := hmInsert (TypeId.of T) ⟨T, v⟩ m.data
  (r.1.bind (downcast_unchecked T), ⟨r.2⟩)

/-- `AnyMap::remove::<T>`: remove the entry under `TypeId::of::<T>()` and
downcast the removed value without a check. -/
def remove (T : RustType) (m : AnyMap) : Option (Value T) × AnyMap :=
  let r := hmRemove (TypeId.of T) m.data
  (r.1.bind (downcast_unchecked T), ⟨r.2⟩)

/-- `AnyMap::contains::<T>`: key-existence check on `TypeId::of::<T>()`. -/
def contains (T : RustType) (m : AnyMap) : Bool :=
  (m.data.map Prod.fst).contains (TypeId.of T)

/-- `AnyMap::len`: the number of entries of the table. -/
def len (m : AnyMap) : Nat := m.data.length

/-- `AnyMap::is_empty`: whether the table has no entries. -/
def is_empty (m : AnyMap) : Bool := m.data.isEmpty

/-- `AnyMap::clear`: drop every entry. -/
def clear (m : AnyMap) : AnyMap := ⟨[]⟩

/-- A caller holding the `&mut T` returned by `get_mut::<T>` may overwrite
the pointed-to value with any other value of type `T`; this models that
write-back. When the entry is present its box is replaced by the image
under `f` of its unchecked downcast; a dynamic-type mismatch (the
undefined-behaviour branch) leaves the box as the model cannot follow it. -/
def mutate (T : RustType) (f : Value T → Value T) (m : AnyMap) : AnyMap :=
  ⟨hmModify (TypeId.of T)
    (fun b => if h : b.fst = T then ⟨T, f (h ▸ b.snd)⟩ else b) m.data⟩

end AnyMap

/-- The states of an `AnyMap` reachable through the public API: created by
`new`, then transformed by `insert`, `remove`, `clear` and writes through
`get_mut`. The read-only operations do not change the state. -/
inductive Reachable : AnyMap → Prop where
  | new : Reachable AnyMap.new
  | insert (T : RustType) (v : Value T) (m : AnyMap) :
      Reachable m → Reachable (AnyMap.insert T v m).2
  | remove (T : RustType) (m : AnyMap) :
      Reachable m → Reachable (AnyMap.remove T m).2
  | clear (m : AnyMap) : Reachable m → Reachable (AnyMap.clear m)
  | mutate (T : RustType) (f : Value T → Value T) (m : AnyMap) :
      Reachable m → Reachable (AnyMap.mutate T f m)

/-- The internal well-formedness of the table: keys are pairwise distinct
(the `HashMap` contract) and every entry is keyed by the `TypeId` of the
dynamic type of the box it holds (the safety invariant of the crate). -/
def Inv (m : AnyMap) : Prop :=
  (m.data.map Prod.fst).Nodup ∧ ∀ p ∈ m.data, p.1 = TypeId.of p.2.fst

/-- The eight little-endian bytes of the 64-bit identity carried by a
`TypeId`, as fed to the hasher by the `Hash` impl of `TypeId` (which
writes its single `u64` field as one 8-byte chunk). -/
def leBytes (t : Nat) : List Nat :=
  [t % 256, t / 256 % 256, t / 65536 % 256, t / 16777216 % 256,
   t / 4294967296 % 256, t / 1099511627776 % 256,
   t / 281474976710656 % 256, t / 72057594037927936 % 256]

/-- The 64-bit value encoded by a little-endian byte list, as recovered by
the byte copy into the `u64` state field. -/
def leValue : List Nat → Nat
  | [] => 0
  | b :: rest => b + 256 * leValue rest

/-- `Writer for TypeIdState::write`: debug-asserts that exactly eight
bytes arrive (the failure of that assertion, undefined in release builds,
is modelled by `none`) and overwrites the `u64` state with the bytes
reinterpreted as a machine word. -/
def TypeIdState.write (value : Nat) (bytes : List Nat) : Option Nat :=
  if bytes.length = 8 then some (leValue bytes) else none

/-- `Hasher<TypeIdState> for TypeIdHasher::hash` applied to a `TypeId`:
start from a zeroed state, feed the bytes of the identity through `write`
and return the resulting state value. -/
def TypeIdHasher.hash (tid : Nat) : Option Nat :=
  TypeIdState.write 0 (leBytes tid)

theorem TypeId.of_injective : Function.Injective TypeId.of := by
  intro T U h
  cases T <;> cases U <;> simp_all [TypeId.of]

@[simp] theorem downcast_self (T : RustType) (v : Value T) :
    downcast_unchecked T ⟨T, v⟩ = some v := by
  simp [downcast_unchecked]

theorem downcast_eq_some (T : RustType) (b : AnyBox) (hb : b.fst = T) :
    downcast_unchecked T b = some (hb ▸ b.snd) := by
  simp [downcast_unchecked, hb]

theorem hmGet_insert_self (k : Nat) (v : AnyBox) (l : List (Nat × AnyBox)) :
    hmGet k (hmInsert k v l).2 = some v := by
  induction l with
  | nil => simp [hmGet, hmInsert]
  | cons p t ih =>
    obtain ⟨k', b⟩ := p
    by_cases h : k' = k <;> simp [hmGet, hmInsert, h, ih]

theorem hmGet_insert_ne (k k' : Nat) (v : AnyBox) (l : List (Nat × AnyBox))
    (h : k' ≠ k) : hmGet k' (hmInsert k v l).2 = hmGet k' l := by
  induction l with
  | nil => simp [hmGet, hmInsert, Ne.symm h]
  | cons p t ih =>
    obtain ⟨k'', b⟩ := p
    by_cases hk : k'' = k
    · subst hk
      simp [hmGet, hmInsert, Ne.symm h]
    · by_cases hk' : k'' = k' <;> simp [hmGet, hmInsert, hk, hk', h, ih]

theorem hmInsert_fst (k : Nat) (v : AnyBox) (l : List (Nat × AnyBox)) :
    (hmInsert k v l).1 = hmGet k l := by
  induction l with
  | nil => simp [hmGet, hmInsert]
  | cons p t ih =>
    obtain ⟨k', b⟩ := p
    by_cases h : k' = k <;> simp [hmGet, hmInsert, h, ih]

theorem hmRemove_fst (k : Nat) (l : List (Nat × AnyBox)) :
    (hmRemove k l).1 = hmGet k l := by
  induction l with
  | nil => simp [hmGet, hmRemove]
  | cons p t ih =>
    obtain ⟨k', b⟩ := p
    by_cases h : k' = k <;> simp [hmGet, hmRemove, h, ih]

theorem hmGet_remove_ne (k k' : Nat) (l : List (Nat × AnyBox))
    (h : k' ≠ k) : hmGet k' (hmRemove k l).2 = hmGet k' l := by
  induction l with
  | nil => simp [hmGet, hmRemove]
  | cons p t ih =>
    obtain ⟨k'', b⟩ := p
    by_cases hk : k'' = k
    · subst hk
      simp [hmGet, hmRemove, Ne.symm h]
    · by_cases hk' : k'' = k' <;> simp [hmGet, hmRemove, hk, hk', h, ih]

theorem hmGet_isSome_iff (k : Nat) (l : List (Nat × AnyBox)) :
    (hmGet k l).isSome = true ↔ k ∈ l.map Prod.fst := by
  induction l with
  | nil => simp [hmGet]
  | cons p t ih =>
    obtain ⟨k', b⟩ := p
    by_cases h : k' = k
    · simp [hmGet, h]
    · simp [hmGet, h, ih, Ne.symm h]

theorem hmGet_none_iff (k : Nat) (l : List (Nat × AnyBox)) :
    hmGet k l = none ↔ k ∉ l.map Prod.fst := by
  rw [← hmGet_isSome_iff]
  cases hg : hmGet k l <;> simp

theorem hmGet_mem (k : Nat) (b : AnyBox) (l : List (Nat × AnyBox))
    (h : hmGet k l = some b) : (k, b) ∈ l := by
  induction l with
  | nil => simp [hmGet] at h
  | cons p t ih =>
    obtain ⟨k', b'⟩ := p
    by_cases hk : k' = k
    · subst hk
      simp [hmGet] at h
      simp [h]
    · simp [hmGet, hk] at h
      exact List.mem_cons_of_mem _ (ih h)

theorem hmInsert_keys (k : Nat) (v : AnyBox) (l : List (Nat × AnyBox)) :
    (hmInsert k v l).2.map Prod.fst =
      if k ∈ l.map Prod.fst then l.map Prod.fst else l.map Prod.fst ++ [k] := by
  induction l with
  | nil => simp [hmInsert]
  | cons p t ih =>
    obtain ⟨k', b⟩ := p
    by_cases h : k' = k
    · subst h
      simp [hmInsert]
    · by_cases hm : k ∈ t.map Prod.fst <;>
        simp [hmInsert, h, hm, Ne.symm h, ih]

theorem hmInsert_nodup (k : Nat) (v : AnyBox) (l : List (Nat × AnyBox))
    (h : (l.map Prod.fst).Nodup) : ((hmInsert k v l).2.map Prod.fst).Nodup := by
  rw [hmInsert_keys]
  by_cases hm : k ∈ l.map Prod.fst
  · simpa [hm] using h
  · simp [hm, List.nodup_append, h]

theorem hmRemove_keys_sublist (k : Nat) (l : List (Nat × AnyBox)) :
    ((hmRemove k l).2.map Prod.fst).Sublist (l.map Prod.fst) := by
  induction l with
  | nil => simp [hmRemove]
  | cons p t ih =>
    obtain ⟨k', b⟩ := p
    by_cases h : k' = k
    · simp only [hmRemove, if_pos h]
      exact (List.map Prod.fst t).sublist_cons_self k'
    · simpa [hmRemove, h] using List.Sublist.cons₂ k' ih

theorem hmInsert_mem (k : Nat) (v : AnyBox) (l : List (Nat × AnyBox))
    (p : Nat × AnyBox) (hp : p ∈ (hmInsert k v l).2) : p = (k, v) ∨ p ∈ l := by
  induction l with
  | nil => simp [hmInsert] at hp; simp [hp]
  | cons q t ih =>
    obtain ⟨k', b⟩ := q
    by_cases h : k' = k
    · simp [hmInsert, h] at hp
      rcases hp with hp | hp <;> simp [hp]
    · simp [hmInsert, h] at hp
      rcases hp with hp | hp
      · simp [hp]
      · rcases ih hp with hi | hi <;> simp [hi]

theorem hmRemove_mem (k : Nat) (l : List (Nat × AnyBox))
    (p : Nat × AnyBox) (hp : p ∈ (hmRemove k l).2) : p ∈ l := by
  induction l with
  | nil => simp [hmRemove] at hp
  | cons q t ih =>
    obtain ⟨k', b⟩ := q
    by_cases h : k' = k
    · simp [hmRemove, h] at hp
      simp [hp]
    · simp [hmRemove, h] at hp
      rcases hp with hp | hp
      · simp [hp]
      · simp [ih hp]

theorem hmModify_keys (k : Nat) (g : AnyBox → AnyBox) (l : List (Nat × AnyBox)) :
    (hmModify k g l).map Prod.fst = l.map Prod.fst := by
  induction l with
  | nil => simp [hmModify]
  | cons q t ih =>
    obtain ⟨k', b⟩ := q
    by_cases h : k' = k <;> simp [hmModify, h, ih]

theorem hmModify_inv (k : Nat) (g : AnyBox → AnyBox) (l : List (Nat × AnyBox))
    (hg : ∀ b, (g b).fst = b.fst)
    (hl : ∀ p ∈ l, p.1 = TypeId.of p.2.fst) :
    ∀ p ∈ hmModify k g l, p.1 = TypeId.of p.2.fst := by
  induction l with
  | nil => simp [hmModify]
  | cons q t ih =>
    obtain ⟨k', b⟩ := q
    intro p hp
    by_cases h : k' = k
    · simp [hmModify, h] at hp
      rcases hp with hp | hp
      · subst hp
        show k = TypeId.of (g b).fst
        rw [hg b, ← h]
        exact hl (k', b) (List.mem_cons_self _ _)
      · exact hl p (List.mem_cons_of_mem _ hp)
    · simp [hmModify, h] at hp
      rcases hp with hp | hp
      · subst hp
        exact hl (k', b) (List.mem_cons_self _ _)
      · exact ih (fun q hq => hl q (List.mem_cons_of_mem _ hq)) p hp

theorem inv_new : Inv AnyMap.new := by
  constructor <;> simp [AnyMap.new, Inv]

theorem inv_insert (T : RustType) (v : Value T) (m : AnyMap) (hI : Inv m) :
    Inv (AnyMap.insert T v m).2 := by
  obtain ⟨hnd, hty⟩ := hI
  refine ⟨hmInsert_nodup _ _ _ hnd, ?_⟩
  intro p hp
  rcases hmInsert_mem _ _ _ p hp with h | h
  · subst h
    rfl
  · exact hty p h

theorem inv_remove (T : RustType) (m : AnyMap) (hI : Inv m) :
    Inv (AnyMap.remove T m).2 := by
  obtain ⟨hnd, hty⟩ := hI
  exact ⟨hnd.sublist (hmRemove_keys_sublist _ _),
    fun p hp => hty p (hmRemove_mem _ _ p hp)⟩

theorem inv_clear (m : AnyMap) : Inv (AnyMap.clear m) := by
  constructor <;> simp [AnyMap.clear, Inv]

theorem inv_mutate (T : RustType) (f : Value T → Value T) (m : AnyMap)
    (hI : Inv m) : Inv (AnyMap.mutate T f m) := by
  obtain ⟨hnd, hty⟩ := hI
  constructor
  · simpa [AnyMap.mutate, hmModify_keys] using hnd
  · refine hmModify_inv _ _ _ ?_ hty
    intro b
    by_cases hb : b.fst = T
    · simp [hb]
    · simp [hb]

theorem reachable_inv (m : AnyMap) (hm : Reachable m) : Inv m := by
  induction hm with
  | new => exact inv_new
  | insert T v m _ ih => exact inv_insert T v m ih
  | remove T m _ ih => exact inv_remove T m ih
  | clear m _ _ => exact inv_clear m
  | mutate T f m _ ih => exact inv_mutate T f m ih

theorem hmGet_wellTyped (T : RustType) (m : AnyMap) (b : AnyBox) (hI : Inv m)
    (hg : hmGet (TypeId.of T) m.data = some b) : b.fst = T := by
  have hmem := hmGet_mem _ _ _ hg
  have := hI.2 _ hmem
  exact (TypeId.of_injective this.symm)

theorem get_isSome_eq (T : RustType) (m : AnyMap) (hI : Inv m) :
    (m.get T).isSome = (hmGet (TypeId.of T) m.data).isSome := by
  cases hg : hmGet (TypeId.of T) m.data with
  | none => simp [AnyMap.get, hg]
  | some b =>
    have hb := hmGet_wellTyped T m b hI hg
    simp [AnyMap.get, hg, downcast_eq_some T b hb]

theorem contains_iff (T : RustType) (m : AnyMap) :
    m.contains T = true ↔ TypeId.of T ∈ m.data.map Prod.fst := by
  simp [AnyMap.contains]

theorem hmRemove_not_mem (k : Nat) (l : List (Nat × AnyBox))
    (hnd : (l.map Prod.fst).Nodup) : k ∉ (hmRemove k l).2.map Prod.fst := by
  induction l with
  | nil => simp [hmRemove]
  | cons p t ih =>
    obtain ⟨k', b⟩ := p
    by_cases h : k' = k
    · subst h
      simpa [hmRemove] using (List.nodup_cons.mp hnd).1
    · have hstep : (hmRemove k ((k', b) :: t)).2 = (k', b) :: (hmRemove k t).2 := by
        simp [hmRemove, h]
      rw [hstep, List.map_cons, List.mem_cons]
      push_neg
      exact ⟨Ne.symm h, ih (List.nodup_cons.mp hnd).2⟩

/-- C1: in every store state reachable through the public operations,
every entry of the table is keyed by the `TypeId` of the dynamic type of
the box it holds, so any unchecked downcast performed after a lookup under
`TypeId::of::<T>()` sees a box whose true type is `T` and succeeds. -/
theorem anymap_safety_invariant (m : AnyMap) (hm : Reachable m) :
    (∀ p ∈ m.data, p.1 = TypeId.of p.2.fst) ∧
    (∀ (T : RustType) (b : AnyBox), hmGet (TypeId.of T) m.data = some b →
      (downcast_unchecked T b).isSome = true) := by
  have hI := reachable_inv m hm
  refine ⟨hI.2, ?_⟩
  intro T b hg
  have hb := hmGet_wellTyped T m b hI hg
  simp [downcast_eq_some T b hb]

theorem anymap_safety_invariant_witness :
    Reachable (AnyMap.insert RustType.intTy 42 AnyMap.new).2 ∧
    (downcast_unchecked RustType.intTy ⟨RustType.intTy, (42 : Int)⟩).isSome = true :=
  ⟨Reachable.insert RustType.intTy 42 AnyMap.new Reachable.new,
    (anymap_safety_invariant (AnyMap.insert RustType.intTy 42 AnyMap.new).2
      (Reachable.insert RustType.intTy 42 AnyMap.new Reachable.new)).2
      RustType.intTy ⟨RustType.intTy, (42 : Int)⟩ rfl⟩

/-- C2: immediately after `insert::<T>(v)`, `get::<T>()` returns `Some`
of a value equal to `v`, on any starting store. -/
theorem insert_get_roundtrip (T : RustType) (v : Value T) (m : AnyMap) :
    (AnyMap.insert T v m).2.get T = some v := by
  simp [AnyMap.get, AnyMap.insert, hmGet_insert_self]

/-- C3: inserting `v2` after `v1` for the same type returns `Some v1` and
leaves the store holding `v2` for that type; inserting when no value of
the type is present returns `None`. -/
theorem insert_replacement (T : RustType) (v1 v2 : Value T) (m : AnyMap) :
    (AnyMap.insert T v2 (AnyMap.insert T v1 m).2).1 = some v1 ∧
    (AnyMap.insert T v2 (AnyMap.insert T v1 m).2).2.get T = some v2 ∧
    (m.contains T = false → (AnyMap.insert T v1 m).1 = none) := by
  refine ⟨?_, ?_, ?_⟩
  · simp [AnyMap.insert, hmInsert_fst, hmGet_insert_self]
  · simp [AnyMap.get, AnyMap.insert, hmGet_insert_self]
  · intro hc
    have hmem : TypeId.of T ∉ m.data.map Prod.fst := by
      intro hmem
      rw [(contains_iff T m).mpr hmem] at hc
      cases hc
    simp [AnyMap.insert, hmInsert_fst, (hmGet_none_iff _ _).mpr hmem]

theorem insert_replacement_witness :
    (AnyMap.insert RustType.intTy 2 (AnyMap.insert RustType.intTy 1 AnyMap.new).2).1 =
      some 1 ∧
    (AnyMap.insert RustType.intTy 2
      (AnyMap.insert RustType.intTy 1 AnyMap.new).2).2.get RustType.intTy = some 2 ∧
    AnyMap.new.contains RustType.intTy = false ∧
    (AnyMap.insert RustType.intTy 1 AnyMap.new).1 = none := by
  have h := insert_replacement RustType.intTy 1 2 AnyMap.new
  exact ⟨h.1, h.2.1, rfl, h.2.2 rfl⟩

/-- C4: on a reachable store, `remove::<T>()` returns exactly what
`get::<T>()` would have returned (ownership of the stored value when
present, `None` otherwise), and afterwards `contains::<T>()` is false and
`get::<T>()` is `None`. -/
theorem remove_clears (T : RustType) (m : AnyMap) (hm : Reachable m) :
    (AnyMap.remove T m).1 = m.get T ∧
    (AnyMap.remove T m).2.contains T = false ∧
    (AnyMap.remove T m).2.get T = none := by
  have hI := reachable_inv m hm
  have hnm := hmRemove_not_mem (TypeId.of T) m.data hI.1
  have hdata : (AnyMap.remove T m).2.data = (hmRemove (TypeId.of T) m.data).2 := rfl
  refine ⟨?_, ?_, ?_⟩
  · show ((hmRemove (TypeId.of T) m.data).1).bind (downcast_unchecked T) = m.get T
    rw [hmRemove_fst]
    rfl
  · rw [Bool.eq_false_iff]
    intro hc
    have hmem := (contains_iff T (AnyMap.remove T m).2).mp hc
    rw [hdata] at hmem
    exact hnm hmem
  · show (hmGet (TypeId.of T) (AnyMap.remove T m).2.data).bind (downcast_unchecked T) = none
    rw [hdata, (hmGet_none_iff _ _).mpr hnm]
    rfl

theorem remove_clears_witness :
    Reachable (AnyMap.insert RustType.intTy 7 AnyMap.new).2 ∧
    ((AnyMap.remove RustType.intTy (AnyMap.insert RustType.intTy 7 AnyMap.new).2).1 =
      (AnyMap.insert RustType.intTy 7 AnyMap.new).2.get RustType.intTy ∧
    (AnyMap.remove RustType.intTy
      (AnyMap.insert RustType.intTy 7 AnyMap.new).2).2.contains RustType.intTy = false ∧
    (AnyMap.remove RustType.intTy
      (AnyMap.insert RustType.intTy 7 AnyMap.new).2).2.get RustType.intTy = none) :=
  ⟨Reachable.insert RustType.intTy 7 AnyMap.new Reachable.new,
    remove_clears RustType.intTy (AnyMap.insert RustType.intTy 7 AnyMap.new).2
      (Reachable.insert RustType.intTy 7 AnyMap.new Reachable.new)⟩

/-- C5: two static types receive the same `TypeId` exactly when they are
the same type; distinct types always receive distinct identities. -/
theorem typeid_uniqueness (T U : RustType) :
    TypeId.of T = TypeId.of U ↔ T = U :=
  ⟨fun h => TypeId.of_injective h, fun h => by rw [h]⟩

/-- C6: inserting a value of type `A` leaves both the presence and the
stored value for any other type `B` unchanged. -/
theorem insert_frame (A B : RustType) (hAB : A ≠ B) (v : Value A) (m : AnyMap) :
    (AnyMap.insert A v m).2.get B = m.get B ∧
    (AnyMap.insert A v m).2.contains B = m.contains B := by
  have hkey : TypeId.of B ≠ TypeId.of A := fun hc => hAB (TypeId.of_injective hc).symm
  have hdata : (AnyMap.insert A v m).2.data =
      (hmInsert (TypeId.of A) ⟨A, v⟩ m.data).2 := rfl
  constructor
  · show (hmGet (TypeId.of B) (AnyMap.insert A v m).2.data).bind (downcast_unchecked B) =
      m.get B
    rw [hdata, hmGet_insert_ne _ _ _ _ hkey]
    rfl
  · apply Bool.coe_iff_coe.mp
    rw [contains_iff, contains_iff, hdata, hmInsert_keys]
    by_cases hm : TypeId.of A ∈ m.data.map Prod.fst
    · simp [hm]
    · simp [hm, hkey]

theorem insert_frame_witness :
    RustType.intTy ≠ RustType.fooTy ∧
    ((AnyMap.insert RustType.intTy 5 AnyMap.new).2.get RustType.fooTy =
      AnyMap.new.get RustType.fooTy ∧
    (AnyMap.insert RustType.intTy 5 AnyMap.new).2.contains RustType.fooTy =
      AnyMap.new.contains RustType.fooTy) :=
  ⟨by decide, insert_frame RustType.intTy RustType.fooTy (by decide) 5 AnyMap.new⟩

/-- C7: hashing a `TypeId` feeds exactly one 8-byte chunk to the writer,
so the debug-only length assertion holds, and the resulting hash is the
64-bit identity value unchanged. -/
theorem typeid_hash_passthrough (tid : Nat) (h : tid < 18446744073709551616) :
    TypeIdHasher.hash tid = some tid ∧ (leBytes tid).length = 8 := by
  have hlen : (leBytes tid).length = 8 := by simp [leBytes]
  have hv : leValue (leBytes tid) = tid := by
    simp only [leBytes, leValue]
    omega
  exact ⟨by simp [TypeIdHasher.hash, TypeIdState.write, hlen, hv], hlen⟩

theorem typeid_hash_passthrough_witness :
    TypeId.of RustType.fooTy < 18446744073709551616 ∧
    (TypeIdHasher.hash (TypeId.of RustType.fooTy) = some (TypeId.of RustType.fooTy) ∧
      (leBytes (TypeId.of RustType.fooTy)).length = 8) :=
  ⟨by decide, typeid_hash_passthrough (TypeId.of RustType.fooTy) (by decide)⟩

/-- C8: on a reachable store, `len()` equals the number of distinct types
currently stored (the table entries carry pairwise-distinct types, so the
deduplicated list of stored types has exactly `len()` elements), and
`is_empty()` is true exactly when `len()` is zero. -/
theorem len_counts_types (m : AnyMap) (hm : Reachable m) :
    m.len = (m.data.map (fun p => p.2.fst)).dedup.length ∧
    (m.is_empty = true ↔ m.len = 0) := by
  have hI := reachable_inv m hm
  have hmap : m.data.map Prod.fst = (m.data.map (fun p => p.2.fst)).map TypeId.of := by
    rw [List.map_map]
    exact List.map_congr_left (fun p hp => hI.2 p hp)
  have hnd : (m.data.map (fun p => p.2.fst)).Nodup := by
    refine List.Nodup.of_map TypeId.of ?_
    rw [← hmap]
    exact hI.1
  constructor
  · rw [List.dedup_eq_self.mpr hnd, List.length_map]
    rfl
  · simp [AnyMap.is_empty, AnyMap.len, List.isEmpty_iff_length_eq_zero]

theorem len_counts_types_witness :
    Reachable (AnyMap.insert RustType.fooTy "foo" AnyMap.new).2 ∧
    ((AnyMap.insert RustType.fooTy "foo" AnyMap.new).2.len =
      ((AnyMap.insert RustType.fooTy "foo" AnyMap.new).2.data.map
        (fun p => p.2.fst)).dedup.length ∧
    ((AnyMap.insert RustType.fooTy "foo" AnyMap.new).2.is_empty = true ↔
      (AnyMap.insert RustType.fooTy "foo" AnyMap.new).2.len = 0)) :=
  ⟨Reachable.insert RustType.fooTy "foo" AnyMap.new Reachable.new,
    len_counts_types (AnyMap.insert RustType.fooTy "foo" AnyMap.new).2
      (Reachable.insert RustType.fooTy "foo" AnyMap.new Reachable.new)⟩

/-- C9: a store returned by `new()` has `len() == 0` and contains no type,
and after `clear()` on any store, `len() == 0` and no type is contained. -/
theorem new_clear_empty (T : RustType) (m : AnyMap) :
    AnyMap.new.len = 0 ∧ AnyMap.new.contains T = false ∧
    (AnyMap.clear m).len = 0 ∧ (AnyMap.clear m).contains T = false := by
  refine ⟨rfl, ?_, rfl, ?_⟩ <;> simp [AnyMap.contains, AnyMap.new, AnyMap.clear]

/-- C10: on a reachable store, `contains::<T>()` returns true exactly when
`get::<T>()` returns `Some`. -/
theorem contains_get_agree (T : RustType) (m : AnyMap) (hm : Reachable m) :
    m.contains T = true ↔ (m.get T).isSome = true := by
  have hI := reachable_inv m hm
  rw [contains_iff, get_isSome_eq T m hI, hmGet_isSome_iff]

theorem contains_get_agree_witness :
    Reachable (AnyMap.insert (RustType.otherTy 0) 3 AnyMap.new).2 ∧
    ((AnyMap.insert (RustType.otherTy 0) 3 AnyMap.new).2.contains (RustType.otherTy 0) =
      true ↔
    ((AnyMap.insert (RustType.otherTy 0) 3 AnyMap.new).2.get
      (RustType.otherTy 0)).isSome = true) :=
  ⟨Reachable.insert (RustType.otherTy 0) 3 AnyMap.new Reachable.new,
    contains_get_agree (RustType.otherTy 0) (AnyMap.insert (RustType.otherTy 0) 3 AnyMap.new).2
      (Reachable.insert (RustType.otherTy 0) 3 AnyMap.new Reachable.new)⟩

end Anymap
